import Mathlib

/-!
Shallow embedding of the circuitSim digital-logic simulator.

Source layout:
* `src/lib.rs` — an earlier revision of the crate: `Value` with its
  `BitAnd`/`BitOr`/`Not` impls, plus an older `Circuit` (which stores the
  value vector inline) and an older `Simulator`.
* `src/element.rs` — `Input`, `Output`, `Component` of the current revision
  (each `Input`/`Output` wraps a single `value_index : usize`).
* `src/function.rs` — `Function` and `Function::evaluate`.
* `src/simulator.rs` — the current `Simulator` with the worklist propagation
  algorithm (`new`, `set_input`, `step`, `simulate`).

All Rust `usize` indices become `Nat`; vectors become `List`; an operation
that can panic (out-of-range indexing) returns `Option`, with `none` for the
panic.  The current `Simulator` struct owns its `Circuit`; here the circuit
is passed as an explicit argument next to the mutable part of the state so
that the nested recursion (`Function::evaluate` on a `Function::Circuit`
runs a whole nested simulation) is well-founded on the size of the circuit.
-/

namespace CircuitSim

/-- `Value` from `src/lib.rs`: a two-valued boolean wire state. -/
inductive Value where
  | on
  | off
deriving DecidableEq

/-- `impl BitAnd for Value` (`src/lib.rs` lines 238-247):
`(On, On) => On`, everything else `Off`. -/
def Value.and : Value → Value → Value
  | .on, .on => .on
  | _, _ => .off

/-- `impl BitOr for Value` (`src/lib.rs` lines 249-258):
`(Off, Off) => Off`, everything else `On`. -/
def Value.or : Value → Value → Value
  | .off, .off => .off
  | _, _ => .on

/-- `impl Not for Value` (`src/lib.rs` lines 260-269): flips the value. -/
def Value.not : Value → Value
  | .on => .off
  | .off => .on

mutual

/-- `Function` from `src/function.rs`: the behavior attached to a component.
The `circuit` variant nests a whole sub-`Circuit`. -/
inductive Function where
  | and
  | or
  | not
  | nand
  | nor
  | circuit (c : Circuit)
  | flipFlopRS
  | flipFlopJK
  | flipFlopD
  | flipFlopT

/-- `Component` from `src/element.rs`: input/output/owned value indices plus
a `Function`. -/
inductive Component where
  | mk (inputValueIndices : List Nat) (outputValueIndices : List Nat)
      (ownedValueIndices : List Nat) (function : Function)

/-- Modelled from the spec: the current revision's `Circuit` type.  Its
defining module is absent from `src/` (only the older `lib.rs` revision and
the consumers `element.rs`/`function.rs`/`simulator.rs` are present).  Per
spec §2/§3 it holds the ordered lists of inputs, outputs and components plus
the total count of value slots (`value_list_len`).  Each `Input`/`Output` is
a single-field wrapper around a `value_index` (`src/element.rs`), so inputs
and outputs are embedded directly as lists of those indices. -/
inductive Circuit where
  | mk (inputs : List Nat) (outputs : List Nat) (components : List Component)
      (valueListLen : Nat)

end

/-- Accessor for `Component::input_value_indices` (`src/element.rs`). -/
def Component.inputValueIndices : Component → List Nat
  | .mk a _ _ _ => a

/-- Accessor for `Component::output_value_indices` (`src/element.rs`). -/
def Component.outputValueIndices : Component → List Nat
  | .mk _ a _ _ => a

/-- Accessor for `Component::owned_value_indices` (`src/element.rs`). -/
def Component.ownedValueIndices : Component → List Nat
  | .mk _ _ a _ => a

/-- Accessor for `Component::function` (`src/element.rs`). -/
def Component.function : Component → Function
  | .mk _ _ _ f => f

/-- Accessor: the circuit's input list (each entry an input's `value_index`). -/
def Circuit.inputs : Circuit → List Nat
  | .mk a _ _ _ => a

/-- Accessor: the circuit's output list (each entry an output's `value_index`). -/
def Circuit.outputs : Circuit → List Nat
  | .mk _ a _ _ => a

/-- Accessor: the circuit's component list. -/
def Circuit.components : Circuit → List Component
  | .mk _ _ a _ => a

/-- Accessor for `Circuit::value_list_len`. -/
def Circuit.valueListLen : Circuit → Nat
  | .mk _ _ _ a => a

/-- `Function::output_value_count` (`src/function.rs` lines 111-124). -/
def Function.outputValueCount : Function → Nat
  | .and => 1
  | .or => 1
  | .not => 1
  | .nand => 1
  | .nor => 1
  | .circuit c => c.outputs.length
  | .flipFlopRS => 2
  | .flipFlopJK => 2
  | .flipFlopD => 2
  | .flipFlopT => 2

/-- `Function::input_value_count` (`src/function.rs` lines 96-109). -/
def Function.inputValueCount : Function → Nat
  | .and => 2
  | .or => 2
  | .not => 1
  | .nand => 2
  | .nor => 2
  | .circuit c => c.inputs.length
  | .flipFlopRS => 2
  | .flipFlopJK => 3
  | .flipFlopD => 2
  | .flipFlopT => 2

/-- `Function::owned_value_count` (`src/function.rs` lines 126-139). -/
def Function.ownedValueCount : Function → Nat
  | .and => 0
  | .or => 0
  | .not => 0
  | .nand => 0
  | .nor => 0
  | .circuit _ => 0
  | .flipFlopRS => 1
  | .flipFlopJK => 2
  | .flipFlopD => 2
  | .flipFlopT => 2

/-- `is_positiv_transient` (`src/function.rs` lines 149-151):
`old_value != new_value && new_value == Value::On`. -/
def isPositivTransient (oldValue newValue : Value) : Bool :=
  oldValue ≠ newValue && newValue = Value.on

/-- The mutable part of `Simulator` (`src/simulator.rs` lines 5-10): the live
value store, the FIFO worklist of changed value indices, and the instability
ceiling.  The owned `circuit` field is passed as an explicit argument to the
operations instead of being stored, so that the recursion through nested
sub-circuits is visibly well-founded. -/
structure Simulator where
  values : List Value
  changedValues : List Nat
  stepsUntilUnstable : Nat

/-- `Simulator::new` (`src/simulator.rs` lines 14-23): seed the worklist with
every value index `0..value_list_len`, size the store with all slots `Off`,
fix the ceiling at 1000. -/
def Simulator.new (c : Circuit) : Simulator :=
  { values := List.replicate c.valueListLen Value.off
    changedValues := List.range c.valueListLen
    stepsUntilUnstable := 1000 }

/-- Read `self.values[i]` for each index of a list; `none` models the Rust
panic on an out-of-range index. -/
def readVals (vs : List Value) : List Nat → Option (List Value)
  | [] => some []
  | i :: is => do
    let v ← vs.get? i
    let rest ← readVals vs is
    some (v :: rest)

/-- Write `self.values[i] = v`; `none` models the Rust panic when `i` is out
of range (Rust `Vec` indexing, unlike `List.set`, aborts there). -/
def setVal (vs : List Value) (i : Nat) (v : Value) : Option (List Value) :=
  if i < vs.length then some (vs.set i v) else none

/-- The owned-value write-back loop of `Simulator::step` (`src/simulator.rs`
lines 96-99): `for i in 0..owned_value_indices.len() { values[idx[i]] =
new_owned_values[i] }`.  Panics (`none`) when `new_owned_values` is shorter
than the index list or an index is out of range. -/
def writeOwned : List Nat → List Value → List Value → Option (List Value)
  | [], _, vs => some vs
  | _ :: _, [], _ => none
  | i :: is, n :: ns, vs => do
    let vs' ← setVal vs i n
    writeOwned is ns vs'

/-- The `value_changes` iterator of `Simulator::step` (`src/simulator.rs`
lines 101-104) and of `Circuit::evaluate_component` (`src/lib.rs` lines
200-203): zip old and new output values (zip truncates at the shorter side,
as in Rust), keep the positions whose value differs, and pair each with the
component's output value index at that position. -/
def valueChanges : List Nat → List Value → List Value → List (Nat × Value)
  | i :: is, o :: os, n :: ns =>
    if o ≠ n then (i, n) :: valueChanges is os ns else valueChanges is os ns
  | _, _, _ => []

/-- The write-back of changed output values (`src/simulator.rs` line 106). -/
def writeChanges (vs : List Value) : List (Nat × Value) → Option (List Value)
  | [] => some vs
  | (i, v) :: rest => do
    let vs' ← setVal vs i v
    writeChanges vs' rest

/-- The enqueue loop of `Simulator::step` (`src/simulator.rs` lines
108-112): for each changed output index, push it to the back of the worklist
only when `changed_values.contains` it at that moment. -/
def enqueueChanged (queue : List Nat) (idxs : List Nat) : List Nat :=
  idxs.foldl (fun q i => if q.contains i then q ++ [i] else q) queue

/-- `Simulator::find_components_by_input` (`src/simulator.rs` lines
133-139): every component whose input index list contains the given value
index, in component order.  (The Rust returns the component indices and
`step` immediately looks each one up; returning the components directly is
the same traversal.) -/
def findComponentsByInput (c : Circuit) (inputValueIndex : Nat) : List Component :=
  c.components.filter (fun comp => comp.inputValueIndices.contains inputValueIndex)

/-- `Simulator::set_input` (`src/simulator.rs` lines 25-32): look up the
input's value index, and only when the new value differs from the stored one
overwrite the slot and push the value index to the back of the worklist. -/
def setInput (c : Circuit) (st : Simulator) (inputIndex : Nat) (value : Value) :
    Option Simulator := do
  let valueIndex ← c.inputs.get? inputIndex
  let current ← st.values.get? valueIndex
  if current ≠ value then
    some { st with values := st.values.set valueIndex value
                   changedValues := st.changedValues ++ [valueIndex] }
  else
    some st

/-- The input-assignment loop of the `Function::Circuit` arm of `evaluate`
(`src/function.rs` lines 44-46): `for i in 0..input_values.len() {
simulator.set_input(i, input_values[i]) }`, starting from position `i`. -/
def setInputsFrom (c : Circuit) : Nat → List Value → Simulator → Option Simulator
  | _, [], st => some st
  | i, v :: vs, st => do
    let st' ← setInput c st i v
    setInputsFrom c (i + 1) vs st'

theorem sizeOf_filter_le {α : Type} [SizeOf α] (p : α → Bool) (l : List α) :
    sizeOf (l.filter p) ≤ sizeOf l := by
  induction l with
  | nil => simp [List.filter]
  | cons a l ih =>
    simp only [List.filter]
    split
    · simp only [List.cons.sizeOf_spec]
      omega
    · simp only [List.cons.sizeOf_spec]
      omega

theorem Component.sizeOf_function_lt (comp : Component) :
    sizeOf comp.function < sizeOf comp := by
  cases comp with
  | mk a b c f =>
    simp only [Component.function, Component.mk.sizeOf_spec]
    omega

theorem Circuit.sizeOf_components_lt (c : Circuit) :
    sizeOf c.components < sizeOf c := by
  cases c with
  | mk a b comps n =>
    simp only [Circuit.components, Circuit.mk.sizeOf_spec]
    omega

mutual

/-- `Function::evaluate` (`src/function.rs` lines 22-94).  Slice indexing
becomes `get?` (with `none` for the panic); the `Circuit` arm instantiates a
fresh nested simulator, assigns the inputs positionally, runs the nested
simulation — discarding its boolean convergence result — and reads one value
per declared sub-circuit output. -/
def Function.evaluate : Function → List Value → List Value →
    Option (List Value × List Value)
  | .and, inputValues, _ =>
    some ([inputValues.foldl Value.and Value.on], [])
  | .or, inputValues, _ =>
    some ([inputValues.foldl Value.or Value.off], [])
  | .not, inputValues, _ => do
    let a ← inputValues.get? 0
    some ([a.not], [])
  | .nand, inputValues, _ =>
    some ([(inputValues.foldl Value.and Value.on).not], [])
  | .nor, inputValues, _ =>
    some ([(inputValues.foldl Value.or Value.off).not], [])
  | .circuit c, inputValues, _ =>
    match setInputsFrom c 0 inputValues (Simulator.new c) with
    | none => none
    | some st1 =>
      match simLoop c st1.stepsUntilUnstable st1 with
      | none => none
      | some p =>
        match readVals p.2.values c.outputs with
        | none => none
        | some outs => some (outs, [])
  | .flipFlopRS, inputValues, ownedValues => do
    let i0 ← inputValues.get? 0
    let i1 ← inputValues.get? 1
    match i0, i1 with
    | .on, .on => some ([Value.off, Value.off], ownedValues)
    | .off, .off => do
      let s ← ownedValues.get? 0
      some ([s, s.not], ownedValues)
    | s, _ => some ([s, s.not], [s])
  | .flipFlopJK, inputValues, ownedValues => do
    let oldClock ← ownedValues.get? 1
    let clock ← inputValues.get? 2
    if isPositivTransient oldClock clock then do
      let j ← inputValues.get? 0
      let k ← inputValues.get? 1
      let s ← ownedValues.get? 0
      let v := match j, k with
        | .on, .on => s.not
        | .on, .off => Value.on
        | .off, .on => Value.off
        | .off, .off => s
      some ([v, v.not], [v, clock])
    else do
      let s ← ownedValues.get? 0
      some ([s, s.not], [s, clock])
  | .flipFlopD, inputValues, ownedValues => do
    let oldClock ← ownedValues.get? 1
    let clock ← inputValues.get? 1
    if isPositivTransient oldClock clock then do
      let d ← inputValues.get? 0
      some ([d, d.not], [d, clock])
    else do
      let s ← ownedValues.get? 0
      some ([s, s.not], [s, clock])
  | .flipFlopT, inputValues, ownedValues => do
    let oldClock ← ownedValues.get? 1
    let clock ← inputValues.get? 1
    if isPositivTransient oldClock clock then do
      let t ← inputValues.get? 0
      if t = Value.on then do
        let s ← ownedValues.get? 0
        some ([s.not, s], [s.not, clock])
      else do
        let s ← ownedValues.get? 0
        some ([s, s.not], [s, clock])
    else do
      let s ← ownedValues.get? 0
      some ([s, s.not], [s, clock])
  termination_by f _ _ => (sizeOf f, 0, 0)
  decreasing_by
    apply Prod.Lex.left
    simp_arith

/-- The per-component body of `Simulator::step` (`src/simulator.rs` lines
79-113), iterated over the components to update: gather current input,
output and owned values, invoke `Function::evaluate`, write back the owned
values unconditionally, write back only the differing output values, and
enqueue each changed output index only when the worklist already contains
it. -/
def stepComps : List Component → Simulator → Option Simulator
  | [], st => some st
  | comp :: comps, st =>
    match readVals st.values comp.inputValueIndices with
    | none => none
    | some inputValues =>
      match readVals st.values comp.outputValueIndices with
      | none => none
      | some oldOutputValues =>
        match
          if comp.function.outputValueCount ≠ 0 then
            readVals st.values comp.ownedValueIndices
          else
            some []
        with
        | none => none
        | some ownedValues =>
          match comp.function.evaluate inputValues ownedValues with
          | none => none
          | some r =>
            match writeOwned comp.ownedValueIndices r.2 st.values with
            | none => none
            | some vs1 =>
              match writeChanges vs1
                  (valueChanges comp.outputValueIndices oldOutputValues r.1) with
              | none => none
              | some vs2 =>
                stepComps comps
                  { st with
                    values := vs2
                    changedValues := enqueueChanged st.changedValues
                      ((valueChanges comp.outputValueIndices oldOutputValues
                        r.1).map Prod.fst) }
  termination_by comps _ => (sizeOf comps, 1, 0)
  decreasing_by
    · apply Prod.Lex.left
      exact lt_trans (Component.sizeOf_function_lt _) (by simp_arith; omega)
    · apply Prod.Lex.left
      simp_arith

/-- `Simulator::step` (`src/simulator.rs` lines 75-115): pop the front of
the worklist (no-op when empty) and re-evaluate every component whose input
list contains the popped index. -/
def step (c : Circuit) (st : Simulator) : Option Simulator :=
  match st.changedValues with
  | [] => some st
  | v :: rest =>
    stepComps (findComponentsByInput c v) { st with changedValues := rest }
  termination_by (sizeOf c, 0, 0)
  decreasing_by
    apply Prod.Lex.left
    simp only [findComponentsByInput]
    exact lt_of_le_of_lt (sizeOf_filter_le _ _) (Circuit.sizeOf_components_lt _)

/-- The loop of `Simulator::simulate` (`src/simulator.rs` lines 117-131)
with the remaining allowed step count made explicit: while the worklist is
non-empty, take a step; once the allowance is exhausted and the worklist is
still non-empty, report non-convergence (`false`).  `simulate` runs it with
allowance `steps_until_unstable`. -/
def simLoop (c : Circuit) : Nat → Simulator → Option (Bool × Simulator)
  | 0, st => if st.changedValues.isEmpty then some (true, st) else some (false, st)
  | n + 1, st =>
    if st.changedValues.isEmpty then some (true, st)
    else
      match step c st with
      | none => none
      | some st' => simLoop c n st'
  termination_by n _ => (sizeOf c, 2, n)
  decreasing_by
    · apply Prod.Lex.right
      apply Prod.Lex.left
      omega
    · apply Prod.Lex.right
      apply Prod.Lex.right
      omega

end

/-- `Simulator::simulate` (`src/simulator.rs` lines 117-131). -/
def simulate (c : Circuit) (st : Simulator) : Option (Bool × Simulator) :=
  simLoop c st.stepsUntilUnstable st

/-- `Component` of the earlier `src/lib.rs` revision (lines 32-37): no owned
value indices yet. -/
structure LibComponent where
  inputValueIndices : List Nat
  outputValueIndices : List Nat
  function : Function

/-- `Circuit` of the earlier `src/lib.rs` revision (lines 14-20): it stores
the value vector inline.  Inputs and outputs are the wrapped `value_index`
fields of the `Input`/`Output` structs (lines 22-30). -/
structure LibCircuit where
  inputs : List Nat
  outputs : List Nat
  components : List LibComponent
  values : List Value

/-- `Circuit::new` (`src/lib.rs` lines 142-149). -/
def LibCircuit.new : LibCircuit :=
  { inputs := [], outputs := [], components := [], values := [] }

/-- `Circuit::add_output` (`src/lib.rs` lines 175-180): push an `Output`
wrapping `value_index` and return the new output's position.  The body
performs no check of `value_index` against the value store. -/
def LibCircuit.addOutput (c : LibCircuit) (valueIndex : Nat) : LibCircuit × Nat :=
  ({ c with outputs := c.outputs ++ [valueIndex] }, c.outputs.length)

/-! ### Unfolding lemmas for the simulation loop -/

theorem simLoop_zero (c : Circuit) (st : Simulator) :
    simLoop c 0 st =
      if st.changedValues.isEmpty then some (true, st) else some (false, st) := by
  simp [simLoop]

theorem simLoop_succ (c : Circuit) (n : Nat) (st : Simulator) :
    simLoop c (n + 1) st =
      if st.changedValues.isEmpty then some (true, st)
      else
        match step c st with
        | none => none
        | some st' => simLoop c n st' := by
  rw [simLoop]

theorem simLoop_of_empty (c : Circuit) (n : Nat) (st : Simulator)
    (h : st.changedValues = []) : simLoop c n st = some (true, st) := by
  cases n <;> simp [simLoop_zero, simLoop_succ, h]

/-! ### The enqueue policy of `step` -/

theorem foldl_enqueue_eq (idxs : List Nat) : ∀ q' q : List Nat,
    (∀ x, x ∈ q' ↔ x ∈ q) →
    idxs.foldl (fun acc i => if acc.contains i then acc ++ [i] else acc) q' =
      q' ++ idxs.filter (fun i => q.contains i) := by
  induction idxs with
  | nil => intro q' q _; simp
  | cons i rest ih =>
    intro q' q hq
    by_cases hc : q'.contains i
    · have hiq' : i ∈ q' := by simpa using hc
      have hiq : i ∈ q := (hq i).1 hiq'
      have hqc : q.contains i = true := by simpa using hiq
      have hext : ∀ x, x ∈ q' ++ [i] ↔ x ∈ q := by
        intro x
        simp only [List.mem_append, List.mem_singleton]
        constructor
        · rintro (hx | rfl)
          · exact (hq x).1 hx
          · exact hiq
        · intro hx
          exact Or.inl ((hq x).2 hx)
      simp only [List.foldl_cons, hc, if_true, List.filter_cons, hqc]
      rw [ih (q' ++ [i]) q hext]
      simp
    · have hiq' : i ∉ q' := by simpa using hc
      have hiq : i ∉ q := fun hx => hiq' ((hq i).2 hx)
      have hqc : q.contains i = false := by simpa using hiq
      simp only [List.foldl_cons, hc, if_false, List.filter_cons, hqc]
      exact ih q' q hq

/-- The enqueue loop appends, in order, exactly the changed indices that were
already present in the worklist. -/
theorem enqueueChanged_eq_append (q idxs : List Nat) :
    enqueueChanged q idxs = q ++ idxs.filter (fun i => q.contains i) := by
  unfold enqueueChanged
  exact foldl_enqueue_eq idxs q q (fun x => Iff.rfl)

/-- The enqueue loop never introduces a new member into the worklist. -/
theorem mem_enqueueChanged (q idxs : List Nat) (x : Nat) :
    x ∈ enqueueChanged q idxs ↔ x ∈ q := by
  rw [enqueueChanged_eq_append]
  simp only [List.mem_append, List.mem_filter]
  constructor
  · rintro (hx | ⟨_, hx⟩)
    · exact hx
    · simpa using hx
  · exact Or.inl

theorem stepComps_queue_subset (comps : List Component) : ∀ st st' : Simulator,
    stepComps comps st = some st' →
    ∀ x, x ∈ st'.changedValues → x ∈ st.changedValues := by
  induction comps with
  | nil =>
    intro st st' h x hx
    simp only [stepComps] at h
    cases h
    exact hx
  | cons comp comps ih =>
    intro st st' h x hx
    simp only [stepComps] at h
    repeat' split at h
    any_goals exact Option.noConfusion h
    all_goals
      have hx' := ih _ _ h x hx
      dsimp only at hx'
      exact (mem_enqueueChanged st.changedValues _ x).1 hx'

theorem step_queue_subset (c : Circuit) (st st' : Simulator)
    (h : step c st = some st') :
    ∀ x, x ∈ st'.changedValues → x ∈ st.changedValues := by
  intro x hx
  obtain ⟨vs, q, k⟩ := st
  cases q with
  | nil =>
    simp only [step] at h
    cases h
    exact hx
  | cons v rest =>
    simp only [step] at h
    have hx' := stepComps_queue_subset _ _ _ h x hx
    dsimp only at hx'
    exact List.mem_cons_of_mem v hx'

/-- The circuit of spec §8 "Non-convergence bound": a single `Not` gate whose
output index is also its own input index.  It arises from
`add_component(Function::Not, vec![0])` on the empty circuit: the fresh
output slot is index 0, which is also the requested input index. -/
def notLoopCircuit : Circuit :=
  .mk [] [] [.mk [0] [0] [] .not] 1

/-! ### Claim theorems -/

/-- C1: in `Simulator::step`, a changed output index is appended to the back
of the worklist only if it is already present in the worklist at that
moment; a changed index not already pending is not enqueued.  First
conjunct: the enqueue loop appends exactly the changed indices already
contained in the worklist.  Second conjunct: consequently a `step` never
makes a new index appear in the worklist. -/
theorem step_enqueue_only_if_present :
    (∀ q idxs : List Nat,
      enqueueChanged q idxs = q ++ idxs.filter (fun i => q.contains i)) ∧
    (∀ (c : Circuit) (st st' : Simulator), step c st = some st' →
      ∀ x, x ∈ st'.changedValues → x ∈ st.changedValues) :=
  ⟨enqueueChanged_eq_append, step_queue_subset⟩

/-- Witness for C1: on the `Not` self-loop with worklist `[0, 0]`, a step
pops the first `0`, the re-evaluation changes output index 0, and since `0`
is still pending it is re-appended; the theorem then yields membership in
the original worklist. -/
theorem step_enqueue_only_if_present_witness :
    0 ∈ (Simulator.mk [Value.off] [0, 0] 1000).changedValues :=
  step_enqueue_only_if_present.2 notLoopCircuit
    (Simulator.mk [Value.off] [0, 0] 1000)
    (Simulator.mk [Value.on] [0, 0] 1000)
    (by
      simp [step, notLoopCircuit, findComponentsByInput, stepComps,
        Component.inputValueIndices, Component.outputValueIndices,
        Component.ownedValueIndices, Component.function, Circuit.components,
        readVals, Function.evaluate, Function.outputValueCount, writeOwned,
        valueChanges, writeChanges, setVal, enqueueChanged, Value.not])
    0 (by decide)

/-- C2 counterexample: on the `Not` self-loop, `simulate` does **not**
return `false` after the step ceiling; because the enqueue guard drops the
changed index (the worklist is empty at that moment), the run converges and
returns `true`. -/
theorem not_loop_simulate_not_false :
    simulate notLoopCircuit (Simulator.new notLoopCircuit) =
      some (true, Simulator.mk [Value.on] [] 1000) ∧
    (simulate notLoopCircuit (Simulator.new notLoopCircuit)).map Prod.fst ≠
      some false := by
  have h1 : Simulator.new notLoopCircuit = Simulator.mk [Value.off] [0] 1000 := by
    simp [Simulator.new, notLoopCircuit, Circuit.valueListLen, List.range_succ]
  have h2 : step notLoopCircuit (Simulator.mk [Value.off] [0] 1000) =
      some (Simulator.mk [Value.on] [] 1000) := by
    simp [step, notLoopCircuit, findComponentsByInput, stepComps,
      Component.inputValueIndices, Component.outputValueIndices,
      Component.ownedValueIndices, Component.function, Circuit.components,
      readVals, Function.evaluate, Function.outputValueCount, writeOwned,
      valueChanges, writeChanges, setVal, enqueueChanged, Value.not]
  have h3 : simulate notLoopCircuit (Simulator.new notLoopCircuit) =
      some (true, Simulator.mk [Value.on] [] 1000) := by
    rw [simulate, h1]
    show simLoop notLoopCircuit (999 + 1) _ = _
    rw [simLoop_succ]
    simp [h2, simLoop_of_empty]
  exact ⟨h3, by simp [h3]⟩

/-- C2 amended: on the `Not` self-loop, `simulate` returns `true` after
exactly one propagation step (the single step empties the worklist, because
the changed output index is not re-enqueued), and never loops forever. -/
theorem not_loop_simulate_true_after_one_step :
    step notLoopCircuit (Simulator.new notLoopCircuit) =
      some (Simulator.mk [Value.on] [] 1000) ∧
    (Simulator.mk [Value.on] [] 1000 : Simulator).changedValues = [] ∧
    simulate notLoopCircuit (Simulator.new notLoopCircuit) =
      some (true, Simulator.mk [Value.on] [] 1000) := by
  have h1 : Simulator.new notLoopCircuit = Simulator.mk [Value.off] [0] 1000 := by
    simp [Simulator.new, notLoopCircuit, Circuit.valueListLen, List.range_succ]
  have h2 : step notLoopCircuit (Simulator.mk [Value.off] [0] 1000) =
      some (Simulator.mk [Value.on] [] 1000) := by
    simp [step, notLoopCircuit, findComponentsByInput, stepComps,
      Component.inputValueIndices, Component.outputValueIndices,
      Component.ownedValueIndices, Component.function, Circuit.components,
      readVals, Function.evaluate, Function.outputValueCount, writeOwned,
      valueChanges, writeChanges, setVal, enqueueChanged, Value.not]
  refine ⟨by rw [h1]; exact h2, rfl, ?_⟩
  rw [simulate, h1]
  show simLoop notLoopCircuit (999 + 1) _ = _
  rw [simLoop_succ]
  simp [h2, simLoop_of_empty]

/-- C3: the gate variants of `Function::evaluate` fold the input slice with
the boolean law, using identity `On` for the AND-family and `Off` for the
OR-family (negated for `Nand`/`Nor`); `Not` negates its single input; every
gate ignores `owned_values` and returns an empty owned-values vector; on two
inputs they match the standard truth tables exactly. -/
theorem gate_evaluate_truth_tables :
    (∀ iv ov, Function.evaluate .and iv ov =
      some ([iv.foldl Value.and Value.on], [])) ∧
    (∀ iv ov, Function.evaluate .or iv ov =
      some ([iv.foldl Value.or Value.off], [])) ∧
    (∀ iv ov, Function.evaluate .nand iv ov =
      some ([(iv.foldl Value.and Value.on).not], [])) ∧
    (∀ iv ov, Function.evaluate .nor iv ov =
      some ([(iv.foldl Value.or Value.off).not], [])) ∧
    (∀ a rest ov, Function.evaluate .not (a :: rest) ov =
      some ([a.not], [])) ∧
    (∀ a b ov, Function.evaluate .and [a, b] ov =
      some ([if a = Value.on ∧ b = Value.on then Value.on else Value.off], [])) ∧
    (∀ a b ov, Function.evaluate .or [a, b] ov =
      some ([if a = Value.off ∧ b = Value.off then Value.off else Value.on], [])) ∧
    (∀ a b ov, Function.evaluate .nand [a, b] ov =
      some ([if a = Value.on ∧ b = Value.on then Value.off else Value.on], [])) ∧
    (∀ a b ov, Function.evaluate .nor [a, b] ov =
      some ([if a = Value.off ∧ b = Value.off then Value.on else Value.off], [])) ∧
    (∀ a ov, Function.evaluate .not [a] ov = some ([a.not], [])) := by
  refine ⟨?_, ?_, ?_, ?_, ?_, ?_, ?_, ?_, ?_, ?_⟩
  · intro iv ov; simp [Function.evaluate]
  · intro iv ov; simp [Function.evaluate]
  · intro iv ov; simp [Function.evaluate]
  · intro iv ov; simp [Function.evaluate]
  · intro a rest ov; simp [Function.evaluate]
  · intro a b ov
    cases a <;> cases b <;> simp [Function.evaluate, Value.and]
  · intro a b ov
    cases a <;> cases b <;> simp [Function.evaluate, Value.or]
  · intro a b ov
    cases a <;> cases b <;> simp [Function.evaluate, Value.and, Value.not]
  · intro a b ov
    cases a <;> cases b <;> simp [Function.evaluate, Value.or, Value.not]
  · intro a ov; simp [Function.evaluate]

/-- C4 counterexample: with input slice `[Off, On]` (claim reading: `R =
Off`, `S = On`) and stored state `Off`, the claim predicts the state is set
to `On` (outputs `[On, Off]`, owned `[On]`); the code instead stores the
value of input 0, yielding outputs `[Off, On]` and owned `[Off]`. -/
theorem rs_set_line_counterexample :
    Function.evaluate .flipFlopRS [Value.off, Value.on] [Value.off] =
      some ([Value.off, Value.on], [Value.off]) ∧
    Function.evaluate .flipFlopRS [Value.off, Value.on] [Value.off] ≠
      some ([Value.on, Value.off], [Value.on]) := by
  constructor <;> simp [Function.evaluate, Value.not]

/-- C4 amended: `FlipFlopRS.evaluate` with input slice ordered `(S, R)` —
not `(R, S)` — and stored state `s`: inputs `(On, On)` yield outputs
`(Off, Off)` with the stored state unchanged; inputs `(Off, Off)` yield
outputs `(s, ¬s)` with the stored state unchanged; otherwise the stored
state takes the value of input 0 (the S line) — in particular `S = On,
R = Off` sets the state to `On` — and the outputs are `(state, ¬state)`. -/
theorem flip_flop_rs_set_reset_spec :
    ∀ a b s : Value,
      Function.evaluate .flipFlopRS [a, b] [s] =
        some (match a, b with
          | .on, .on => ([Value.off, Value.off], [s])
          | .off, .off => ([s, s.not], [s])
          | _, _ => ([a, a.not], [a])) := by
  intro a b s
  cases a <;> cases b <;> cases s <;> simp [Function.evaluate, Value.not]

/-- C5: `FlipFlopD.evaluate` with inputs `(D, clock)` and owned slots
`[state, last_clock]`: the new state equals `D` exactly when `last_clock`
differs from `clock` and `clock` is `On` (the positive-edge condition of
`is_positiv_transient`), and equals the prior state otherwise; the outputs
are `(state', ¬state')` and the returned owned values are
`[state', clock]`. -/
theorem flip_flop_d_edge_spec :
    ∀ d clock s lastClock : Value,
      Function.evaluate .flipFlopD [d, clock] [s, lastClock] =
        some
          (let s' := if lastClock ≠ clock ∧ clock = Value.on then d else s
           ([s', s'.not], [s', clock])) := by
  intro d clock s lastClock
  cases d <;> cases clock <;> cases s <;> cases lastClock <;>
    simp [Function.evaluate, isPositivTransient, Value.not]

/-- C10: evaluating `And`/`Or`/`Nand`/`Nor` on the empty input slice is
total and returns the fold identity (`[On]`, `[Off]`, `[Off]`, `[On]`
respectively), whereas `Not` indexes element 0 directly and is therefore
defined (`some`) exactly on input slices of length at least 1. -/
theorem empty_input_gate_totality :
    (∀ ov, Function.evaluate .and [] ov = some ([Value.on], [])) ∧
    (∀ ov, Function.evaluate .or [] ov = some ([Value.off], [])) ∧
    (∀ ov, Function.evaluate .nand [] ov = some ([Value.off], [])) ∧
    (∀ ov, Function.evaluate .nor [] ov = some ([Value.on], [])) ∧
    (∀ ov, Function.evaluate .not [] ov = none) ∧
    (∀ a rest ov, Function.evaluate .not (a :: rest) ov =
      some ([a.not], [])) := by
  refine ⟨?_, ?_, ?_, ?_, ?_, ?_⟩ <;>
    intros <;> simp [Function.evaluate, Value.and, Value.or, Value.not]

/-- A one-input circuit used to instantiate hypotheses at concrete states:
one `Input` wrapping value index 0, one value slot. -/
def inputOnlyCircuit : Circuit :=
  .mk [0] [] [] 1

/-- C6: for a valid input index (and its in-range value slot), `set_input`
with the stored value leaves the simulator unchanged (value store and
worklist untouched), while a differing value overwrites the slot and
appends the underlying value-store index to the back of the worklist. -/
theorem set_input_spec :
    ∀ (c : Circuit) (st : Simulator) (i vi : Nat) (v current : Value),
      c.inputs.get? i = some vi →
      st.values.get? vi = some current →
      (current = v → setInput c st i v = some st) ∧
      (current ≠ v → setInput c st i v =
        some { st with values := st.values.set vi v
                       changedValues := st.changedValues ++ [vi] }) := by
  intro c st i vi v current h1 h2
  rw [List.get?_eq_getElem?] at h1 h2
  constructor
  · intro hcv
    simp [setInput, h1, h2, hcv]
  · intro hcv
    simp [setInput, h1, h2, hcv]

/-- Witness for C6: on the one-input circuit from its cold-start state
(stored value `Off`), setting input 0 to `On` overwrites slot 0 and appends
index 0 to the worklist. -/
theorem set_input_spec_witness :
    setInput inputOnlyCircuit (Simulator.new inputOnlyCircuit) 0 Value.on =
      some (Simulator.mk [Value.on] [0, 0] 1000) := by
  have h := (set_input_spec inputOnlyCircuit (Simulator.new inputOnlyCircuit)
    0 0 Value.on Value.off (by decide) (by decide)).2 (by decide)
  simpa [Simulator.new, inputOnlyCircuit, Circuit.valueListLen,
    List.range_succ] using h

/-- C7: `Simulator::new(circuit)` produces a value store with exactly
`value_list_len` slots, all `Off`, a worklist containing exactly the value
indices `0 .. value_list_len`, and the instability ceiling fixed at 1000. -/
theorem simulator_new_spec :
    ∀ c : Circuit,
      (Simulator.new c).values.length = c.valueListLen ∧
      (∀ v, v ∈ (Simulator.new c).values → v = Value.off) ∧
      (∀ i, i ∈ (Simulator.new c).changedValues ↔ i < c.valueListLen) ∧
      (Simulator.new c).stepsUntilUnstable = 1000 := by
  intro c
  refine ⟨?_, ?_, ?_, rfl⟩
  · simp [Simulator.new]
  · intro v hv
    simp only [Simulator.new] at hv
    exact List.eq_of_mem_replicate hv
  · intro i
    simp [Simulator.new, List.mem_range]

/-- Witness for C7 on the one-input circuit: one slot, slot value `Off`,
index 0 pending. -/
theorem simulator_new_spec_witness :
    (Simulator.new inputOnlyCircuit).values.length =
      inputOnlyCircuit.valueListLen ∧
    Value.off = Value.off ∧
    0 ∈ (Simulator.new inputOnlyCircuit).changedValues :=
  ⟨(simulator_new_spec inputOnlyCircuit).1,
   (simulator_new_spec inputOnlyCircuit).2.1 Value.off (by decide),
   ((simulator_new_spec inputOnlyCircuit).2.2.1 0).2 (by decide)⟩

/-- C8 counterexample: on the empty circuit (zero value slots),
`add_output 5` does **not** fail fast: it silently appends an `Output`
wrapping index 5 and returns position 0, despite `5 ≥` the number of value
slots. -/
theorem add_output_no_check_counterexample :
    (LibCircuit.new.addOutput 5).1.outputs = [5] ∧
    (LibCircuit.new.addOutput 5).2 = 0 ∧
    LibCircuit.new.values.length = 0 :=
  ⟨rfl, rfl, rfl⟩

/-- C8 amended: `Circuit::add_output` performs no bound check at all: for
every `value_index` — in range or not — it appends an `Output` wrapping
that index and returns the new output's position (the previous number of
outputs).  An out-of-range index fails only later, when the output is
read. -/
theorem add_output_total_append :
    ∀ (c : LibCircuit) (valueIndex : Nat),
      c.addOutput valueIndex =
        ({ c with outputs := c.outputs ++ [valueIndex] }, c.outputs.length) := by
  intro c valueIndex
  rfl

/-- The `Function::Circuit` arm of `evaluate` written with the convergence
flag visibly projected away: run the nested simulation and keep only its
final state. -/
theorem evaluate_circuit_eq (c : Circuit) (iv ov : List Value) :
    Function.evaluate (.circuit c) iv ov =
      (setInputsFrom c 0 iv (Simulator.new c)).bind (fun st1 =>
        ((simulate c st1).map Prod.snd).bind (fun st2 =>
          (readVals st2.values c.outputs).map
            (fun outs => (outs, ([] : List Value))))) := by
  simp only [Function.evaluate, simulate]
  cases hs : setInputsFrom c 0 iv (Simulator.new c) with
  | none => simp
  | some st1 =>
    simp only [Option.some_bind]
    cases hp : simLoop c st1.stepsUntilUnstable st1 with
    | none => simp
    | some p =>
      simp only [Option.map_some, Option.some_bind]
      cases hr : readVals p.2.values c.outputs with
      | none => simp [hr]
      | some outs => simp [hr]

/-- C9: the `Function::Circuit` arm of `evaluate` discards the boolean
convergence result of the nested `simulate` call: whatever the flag, the
result is exactly the sub-circuit's output values read from the (possibly
only partially propagated) final store — one per declared output, in
declaration order — paired with an empty owned-values vector, with no error
signaled to the caller. -/
theorem circuit_eval_discards_convergence :
    ∀ (c : Circuit) (iv ov : List Value),
      Function.evaluate (.circuit c) iv ov =
        (setInputsFrom c 0 iv (Simulator.new c)).bind (fun st1 =>
          ((simulate c st1).map Prod.snd).bind (fun st2 =>
            (readVals st2.values c.outputs).map
              (fun outs => (outs, ([] : List Value))))) :=
  evaluate_circuit_eq

end CircuitSim
